import Mathlib

/-!
# Verification of the snarkOS memory pool and sync master

A shallow embedding of `src/consensus/src/memory_pool.rs` and
`src/network/src/sync/master.rs`, followed by theorems settling the
specification claims about them.

Modelling conventions:
* `Vec<u8>` byte strings are `List Nat` (`Bytes`).
* `HashMap<Vec<u8>, V>` is an association list with overwrite-on-insert
  semantics; reachable pools have duplicate-free keys.
* `Result<A, ConsensusError>` is `Except Unit A`; a Rust method taking
  `&mut self` is a function returning the result paired with the updated
  value, so that the state after an early `return` is visible.
* `usize` values are `Nat`; the one unguarded subtraction whose underflow
  matters (`get_candidates`) is modelled as an explicit `Option`, with
  `none` standing for the arithmetic-underflow panic.
-/

set_option maxHeartbeats 1000000

namespace SnarkOS

/-- Byte strings (`Vec<u8>`) are modelled as lists of naturals. -/
abbrev Bytes := List Nat

/-- The capability set of snarkVM's `TransactionScheme` that the mempool
uses: serial numbers, commitments, memorandum, a fallible transaction id
(`none` models `Err`), and the serialized size. -/
structure Transaction where
  old_serial_numbers : List Bytes
  new_commitments : List Bytes
  memorandum : Bytes
  transaction_id : Option Bytes
  size : Nat
deriving DecidableEq, Repr

/-- Embeds `Entry`: a transaction and its size in the memory pool
(`memory_pool.rs` lines 35-38). -/
structure Entry where
  size_in_bytes : Nat
  transaction : Transaction
deriving DecidableEq, Repr

/-- The read-only ledger interface consumed by the mempool:
membership of serial numbers, commitments and memoranda, plus the
persisted memory-pool slot (`storage.get_memory_pool()`, whose `Err`
is `.error ()`). -/
structure Ledger where
  sn_set : List Bytes
  cm_set : List Bytes
  memo_set : List Bytes
  memory_pool_blob : Except Unit (Option Bytes)

def Ledger.contains_sn (L : Ledger) (x : Bytes) : Bool := decide (x ∈ L.sn_set)

def Ledger.contains_cm (L : Ledger) (x : Bytes) : Bool := decide (x ∈ L.cm_set)

def Ledger.contains_memo (L : Ledger) (x : Bytes) : Bool := decide (x ∈ L.memo_set)

/-- Modelled from the spec: `Ledger::transaction_conflicts` lives in the
`snarkos-storage` crate, which is not among the provided sources.  Per the
spec a transaction conflicts with the ledger iff any of its serial
numbers, commitments, or its memorandum already appears there. -/
def Ledger.transaction_conflicts (L : Ledger) (t : Transaction) : Bool :=
  t.old_serial_numbers.any L.contains_sn
    || t.new_commitments.any L.contains_cm
    || L.contains_memo t.memorandum

/-- Modelled from the spec: `DPCTransactions::conflicts` (snarkVM) —
two transactions conflict iff they share a serial number, a commitment,
or the memorandum. -/
def txShares (a b : Transaction) : Bool :=
  a.old_serial_numbers.any (fun s => decide (s ∈ b.old_serial_numbers))
    || a.new_commitments.any (fun c => decide (c ∈ b.new_commitments))
    || decide (a.memorandum = b.memorandum)

/-- Modelled from the spec: `transactions.conflicts(&tx)` on the candidate
list — some already-selected transaction shares sn/cm/memo with `t`. -/
def listConflicts (sel : List Transaction) (t : Transaction) : Bool :=
  sel.any (fun u => txShares u t)

/-- snarkVM's `has_duplicates` utility. -/
def hasDuplicates {α : Type} [DecidableEq α] : List α → Bool
  | [] => false
  | x :: xs => decide (x ∈ xs) || hasDuplicates xs

/-! ## Association-list model of `HashMap<Vec<u8>, V>` -/

def mapLookup {β : Type} (m : List (Bytes × β)) (k : Bytes) : Option β :=
  match m with
  | [] => none
  | kv :: rest => if kv.1 = k then some kv.2 else mapLookup rest k

def mapContainsKey {β : Type} (m : List (Bytes × β)) (k : Bytes) : Bool :=
  (mapLookup m k).isSome

/-- Embeds `HashMap::remove` / the complement of one binding. -/
def mapErase {β : Type} (m : List (Bytes × β)) (k : Bytes) : List (Bytes × β) :=
  m.filter (fun kv => decide (kv.1 ≠ k))

/-- Embeds `HashMap::insert`, overwrite-on-collision. -/
def mapInsert {β : Type} (m : List (Bytes × β)) (k : Bytes) (v : β) : List (Bytes × β) :=
  (k, v) :: mapErase m k

/-! ## The memory pool (`memory_pool.rs`) -/

/-- Embeds `MemoryPool`: transactions keyed by id plus the running byte total
(`memory_pool.rs` lines 43-48). -/
structure MemoryPool where
  transactions : List (Bytes × Entry)
  total_size_in_bytes : Nat
deriving DecidableEq, Repr

/-- Embeds `MemoryPool::new` / `Default`. -/
def MemoryPool.new : MemoryPool := ⟨[], 0⟩

/-- Embeds `MemoryPool::contains` (lines 202-207): true iff the entry's id
computes and is a key of the map; an `Err` id yields `false`. -/
def MemoryPool.contains (p : MemoryPool) (e : Entry) : Bool :=
  match e.transaction.transaction_id with
  | some tid => mapContainsKey p.transactions tid
  | none => false

/-- Embeds `MemoryPool::insert` (lines 102-150).  Returns the Rust return value
paired with the pool after the call. -/
def MemoryPool.insert (p : MemoryPool) (L : Ledger) (e : Entry) :
    Except Unit (Option Bytes) × MemoryPool :=
  let sns := e.transaction.old_serial_numbers
  let cms := e.transaction.new_commitments
  let memo := e.transaction.memorandum
  if hasDuplicates sns || hasDuplicates cms || p.contains e then
    (.ok none, p)
  else
    let holding_sns := (p.transactions.map (fun kv => kv.2.transaction.old_serial_numbers)).flatten
    let holding_cms := (p.transactions.map (fun kv => kv.2.transaction.new_commitments)).flatten
    let holding_memos := p.transactions.map (fun kv => kv.2.transaction.memorandum)
    if sns.any (fun sn => L.contains_sn sn || decide (sn ∈ holding_sns)) then
      (.ok none, p)
    else if cms.any (fun cm => L.contains_cm cm || decide (cm ∈ holding_cms)) then
      (.ok none, p)
    else if L.contains_memo memo || decide (memo ∈ holding_memos) then
      (.ok none, p)
    else
      match e.transaction.transaction_id with
      | some tid =>
          (.ok (some tid),
            { transactions := mapInsert p.transactions tid e
              total_size_in_bytes := p.total_size_in_bytes + e.size_in_bytes })
      | none => (.error (), p)

/-- Embeds `MemoryPool::remove` (lines 172-184).  The subtraction uses the
*argument's* `size_in_bytes`, exactly as the source does; the `none` id
branch is unreachable because `contains` already requires a computed id
(there the Rust code would have mutated the total before erroring, which
the pool component records). -/
def MemoryPool.remove (p : MemoryPool) (e : Entry) :
    Except Unit (Option Bytes) × MemoryPool :=
  if p.contains e then
    let total := p.total_size_in_bytes - e.size_in_bytes
    match e.transaction.transaction_id with
    | some tid => (.ok (some tid), ⟨mapErase p.transactions tid, total⟩)
    | none => (.error (), ⟨p.transactions, total⟩)
  else
    (.ok none, p)

/-- Embeds `MemoryPool::remove_by_hash` (lines 188-198): keyed removal, which
decrements by the *stored* entry's size. -/
def MemoryPool.remove_by_hash (p : MemoryPool) (tid : Bytes) :
    Except Unit (Option Entry) × MemoryPool :=
  match mapLookup p.transactions tid with
  | some ent =>
      (.ok (some ent),
        ⟨mapErase p.transactions tid, p.total_size_in_bytes - ent.size_in_bytes⟩)
  | none => (.ok none, p)

/-- The `for … { new_memory_pool.insert(...)? }` loop shared by `cleanse`
and `from_storage`: fold entries through `insert`, propagating the first
error. -/
def insertAll (L : Ledger) : MemoryPool → List Entry → Except Unit MemoryPool
  | acc, [] => .ok acc
  | acc, e :: es =>
      match acc.insert L e with
      | (.error _, _) => .error ()
      | (.ok _, p') => insertAll L p' es

/-- Embeds `MemoryPool::cleanse` (lines 154-168): rebuild through `insert`
against the ledger; on success replace map and total, on error leave the
pool untouched (the Rust `?` returns before the final assignments). -/
def MemoryPool.cleanse (p : MemoryPool) (L : Ledger) :
    Except Unit Unit × MemoryPool :=
  match insertAll L MemoryPool.new (p.transactions.map (fun kv => kv.2)) with
  | .ok q => (.ok (), q)
  | .error _ => (.error (), p)

/-- Embeds `MemoryPool::from_storage` (lines 61-80).  The bytes-level decode
`DPCTransactions::read` is external snarkVM serialization and is
abstracted as the `decode` parameter.  Note the source pattern
`if let Ok(Some(..)) = storage.get_memory_pool()` falls through to
`Ok(memory_pool)` when the read errs or the blob is absent or fails to
decode. -/
def MemoryPool.from_storage (decode : Bytes → Except Unit (List Transaction))
    (L : Ledger) : Except Unit MemoryPool :=
  let mp := MemoryPool.new
  match L.memory_pool_blob with
  | .ok (some serialized) =>
      match decode serialized with
      | .ok txs => insertAll L mp (txs.map (fun t => ⟨t.size, t⟩))
      | .error _ => .ok mp
  | .ok none => .ok mp
  | .error _ => .ok mp

/-- Embeds `COINBASE_TRANSACTION_SIZE` (line 51). -/
def COINBASE_TRANSACTION_SIZE : Nat := 1490

/-- The selection loop of `get_candidates` (lines 217-230), carrying
`block_size` and the selected entries (the source pushes
`entry.transaction` and tracks the size separately; keeping the entries
retains both). -/
def selectEntries (L : Ledger) (maxPayload : Nat) :
    List (Bytes × Entry) → Nat → List Entry → Nat × List Entry
  | [], bs, sel => (bs, sel)
  | kv :: rest, bs, sel =>
      let e := kv.2
      if bs + e.size_in_bytes ≤ maxPayload then
        if L.transaction_conflicts e.transaction
            || listConflicts (sel.map Entry.transaction) e.transaction then
          selectEntries L maxPayload rest bs sel
        else
          selectEntries L maxPayload rest (bs + e.size_in_bytes) (sel ++ [e])
      else
        selectEntries L maxPayload rest bs sel

/-- Embeds `MemoryPool::get_candidates` (lines 210-233).  `bhs` is the external
constant `BlockHeader::size()` (implementation-defined, fixed).  The
unguarded `usize` subtraction on line 215 is modelled explicitly: `none`
is the debug-mode underflow panic when
`max_size < bhs + COINBASE_TRANSACTION_SIZE`. -/
def MemoryPool.get_candidates (p : MemoryPool) (L : Ledger) (bhs : Nat)
    (max_size : Nat) : Option (List Transaction) :=
  if bhs + COINBASE_TRANSACTION_SIZE ≤ max_size then
    some ((selectEntries L (max_size - (bhs + COINBASE_TRANSACTION_SIZE))
            p.transactions 0 []).2.map Entry.transaction)
  else
    none

/-! ## Pool operation sequences (for the reachability invariant) -/

/-- Sum of the stored entry sizes — the right-hand side of invariant P1. -/
def poolSum (m : List (Bytes × Entry)) : Nat :=
  (m.map (fun kv => kv.2.size_in_bytes)).sum

/-- One mutating mempool API call, with the ledger it runs against. -/
inductive PoolOp where
  | ins (L : Ledger) (e : Entry)
  | rem (e : Entry)
  | remByHash (tid : Bytes)
  | cln (L : Ledger)

def applyOp (p : MemoryPool) : PoolOp → MemoryPool
  | .ins L e => (p.insert L e).2
  | .rem e => (p.remove e).2
  | .remByHash tid => (p.remove_by_hash tid).2
  | .cln L => (p.cleanse L).2

def runOps (p : MemoryPool) (ops : List PoolOp) : MemoryPool :=
  ops.foldl applyOp p

/-- A `remove` call is size-consistent when the argument's size field
agrees with the size stored in the pool under the argument's id (vacuous
when absent). -/
def sizeConsistentRemove (p : MemoryPool) (e : Entry) : Bool :=
  match e.transaction.transaction_id with
  | none => true
  | some tid =>
      match mapLookup p.transactions tid with
      | none => true
      | some ent => decide (ent.size_in_bytes = e.size_in_bytes)

/-- Every `remove` along the sequence is size-consistent at the state
where it runs. -/
def safeOps (p : MemoryPool) : List PoolOp → Bool
  | [] => true
  | op :: rest =>
      (match op with
        | .rem e => sizeConsistentRemove p e
        | _ => true)
      && safeOps (applyOp p op) rest

/-! ## The sync master (`master.rs`) -/

/-- Modelled from the spec: the peer-quality snapshot read by sync peer
selection (`Peer::judge_bad` and `quality.block_height` live in the peer
crate, outside the provided sources); `address` is an abstract peer
identity standing for `SocketAddr`. -/
structure Peer where
  address : Nat
  block_height : Nat
  judge_bad : Bool
deriving DecidableEq, Repr

/-- Embeds `Iterator::position`: index of the first element satisfying `p`. -/
def listPosition {α : Type} (p : α → Bool) : List α → Option Nat
  | [] => none
  | x :: xs => if p x then some 0 else (listPosition p xs).map (· + 1)

/-- Rust's stable `sort_by(|x, y| y.block_height.cmp(&x.block_height))`:
stable descending insertion by advertised height. -/
def insertDesc (x : Peer) : List Peer → List Peer
  | [] => [x]
  | y :: ys =>
      if y.block_height ≤ x.block_height then x :: y :: ys
      else y :: insertDesc x ys

def sortPeersDesc : List Peer → List Peer
  | [] => []
  | x :: xs => insertDesc x (sortPeersDesc xs)

/-- Embeds `SyncMaster::find_sync_nodes` (lines 55-78): filter to good peers more
than one block ahead, sort descending by height, then truncate just after
the first peer at most ten blocks ahead (when one exists). -/
def find_sync_nodes (our_block_height : Nat) (peers : List Peer) : List Peer :=
  let interesting_peers := peers.filter
    (fun p => !p.judge_bad && decide (our_block_height + 1 < p.block_height))
  let sorted := sortPeersDesc interesting_peers
  match listPosition (fun x => decide (x.block_height ≤ our_block_height + 10)) sorted with
  | some i => sorted.take (i + 1)
  | none => sorted

/-- One pass of the `for (_, hashes) in input` loop inside
`order_block_hashes` (lines 196-205) at column `block_index = i`,
threading `found_row`, the `seen` set and the output. -/
def orderRound (i : Nat) :
    List (Nat × List Bytes) → List Bytes → List Bytes → Bool →
      Bool × List Bytes × List Bytes
  | [], seen, acc, found => (found, seen, acc)
  | pr :: rest, seen, acc, found =>
      match pr.2.get? i with
      | some h =>
          if decide (h ∈ seen) then orderRound i rest seen acc true
          else orderRound i rest (h :: seen) (acc ++ [h]) true
      | none => orderRound i rest seen acc found

/-- The outer `loop` of `order_block_hashes`, advancing `block_index`
until a round finds no entry; `fuel` bounds the rounds (the caller
passes one more than the longest hash list, which provably suffices). -/
def orderLoop (input : List (Nat × List Bytes)) :
    Nat → Nat → List Bytes → List Bytes → List Bytes
  | 0, _, _, acc => acc
  | fuel + 1, i, seen, acc =>
      match orderRound i input seen acc false with
      | (found, seen', acc') =>
          if found then orderLoop input fuel (i + 1) seen' acc' else acc'

/-- Longest advertised hash list. -/
def maxHashLen (input : List (Nat × List Bytes)) : Nat :=
  input.foldr (fun pr acc => max pr.2.length acc) 0

/-- Embeds `SyncMaster::order_block_hashes` (lines 190-212): column-major
flattening with duplicate suppression. -/
def order_block_hashes (input : List (Nat × List Bytes)) : List Bytes :=
  orderLoop input (maxHashLen input + 1) 0 [] []

/-- A received sync block: `(address, serialized bytes)`. -/
structure SyncBlock where
  address : Nat
  block : Bytes
deriving DecidableEq, Repr

/-- The ingestion loop of `SyncMaster::run` (lines 341-355): walk the
planned order, pop each received block from `blocks_by_hash` and hand it
to `process_received_block` (abstracted as `proc`, whose `Err` aborts the
run via `?`); a missing block only warns.  Returns the hashes for which
`process_received_block` was invoked, in invocation order. -/
def ingestRun (proc : Bytes → SyncBlock → Except Unit Unit) :
    List Bytes → List (Bytes × SyncBlock) → Except Unit (List Bytes)
  | [], _ => .ok []
  | h :: rest, m =>
      match mapLookup m h with
      | some b =>
          match proc h b with
          | .ok _ => (ingestRun proc rest (mapErase m h)).map (fun l => h :: l)
          | .error _ => .error ()
      | none => ingestRun proc rest m

/-- The PlanBlocks hash list fed to ingestion (`run`, lines 302-305):
the column-major order with ledger-known hashes dropped
(`block_hash_exists` is abstracted as the predicate `known`). -/
def planOrder (known : Bytes → Bool) (input : List (Nat × List Bytes)) : List Bytes :=
  (order_block_hashes input).filter (fun h => !known h)

/-! ## Association-list lemmas -/

theorem mapErase_cons {β : Type} (kv : Bytes × β) (rest : List (Bytes × β))
    (k : Bytes) :
    mapErase (kv :: rest) k =
      if kv.1 = k then mapErase rest k else kv :: mapErase rest k := by
  by_cases hk : kv.1 = k
  · simp [mapErase, List.filter_cons, hk]
  · simp [mapErase, List.filter_cons, hk]

theorem mapLookup_erase_ne {β : Type} (m : List (Bytes × β)) (k k' : Bytes)
    (h : k' ≠ k) : mapLookup (mapErase m k) k' = mapLookup m k' := by
  induction m with
  | nil => rfl
  | cons kv rest ih =>
      rw [mapErase_cons]
      by_cases hk : kv.1 = k
      · rw [if_pos hk, ih, mapLookup, if_neg]
        intro hh
        exact h (by rw [← hh]; exact hk)
      · rw [if_neg hk, mapLookup, mapLookup]
        by_cases he : kv.1 = k'
        · rw [if_pos he, if_pos he]
        · rw [if_neg he, if_neg he]
          exact ih

theorem mapErase_eq_self {β : Type} (m : List (Bytes × β)) (k : Bytes)
    (h : mapContainsKey m k = false) : mapErase m k = m := by
  induction m with
  | nil => rfl
  | cons kv rest ih =>
      unfold mapContainsKey at h
      rw [mapLookup] at h
      by_cases hk : kv.1 = k
      · rw [if_pos hk] at h
        simp at h
      · rw [if_neg hk] at h
        rw [mapErase_cons, if_neg hk, ih h]

theorem keys_mapErase_sublist {β : Type} (m : List (Bytes × β)) (k : Bytes) :
    (mapErase m k).Sublist m :=
  List.filter_sublist m

theorem mapLookup_none_of_not_mem_keys {β : Type} (m : List (Bytes × β))
    (k : Bytes) (h : k ∉ m.map Prod.fst) : mapLookup m k = none := by
  induction m with
  | nil => rfl
  | cons kv rest ih =>
      simp only [List.map_cons, List.mem_cons, not_or] at h
      rw [mapLookup, if_neg (fun hh => h.1 hh.symm)]
      exact ih h.2

theorem poolSum_cons (kv : Bytes × Entry) (rest : List (Bytes × Entry)) :
    poolSum (kv :: rest) = kv.2.size_in_bytes + poolSum rest := by
  simp [poolSum]

/-- Sum-splitting for a keyed removal, under duplicate-free keys. -/
theorem poolSum_erase (m : List (Bytes × Entry)) (k : Bytes) (ent : Entry)
    (hn : (m.map Prod.fst).Nodup) (hl : mapLookup m k = some ent) :
    poolSum m = ent.size_in_bytes + poolSum (mapErase m k) := by
  induction m with
  | nil => simp [mapLookup] at hl
  | cons kv rest ih =>
      simp only [List.map_cons, List.nodup_cons] at hn
      rw [mapLookup] at hl
      by_cases hk : kv.1 = k
      · rw [if_pos hk] at hl
        injection hl with hl
        subst hl
        rw [mapErase_cons, if_pos hk]
        have hnone : mapErase rest k = rest := by
          apply mapErase_eq_self
          have hnm : k ∉ rest.map Prod.fst := by
            rw [← hk]; exact hn.1
          simp [mapContainsKey, mapLookup_none_of_not_mem_keys rest k hnm]
        rw [hnone, poolSum_cons]
      · rw [if_neg hk] at hl
        rw [mapErase_cons, if_neg hk, poolSum_cons, poolSum_cons, ih hn.2 hl]
        omega

theorem mapLookup_mem_values {β : Type} (m : List (Bytes × β)) (k : Bytes)
    (v : β) (h : mapLookup m k = some v) : v ∈ m.map Prod.snd := by
  induction m with
  | nil => simp [mapLookup] at h
  | cons kv rest ih =>
      rw [mapLookup] at h
      by_cases hk : kv.1 = k
      · rw [if_pos hk] at h; injection h with h; simp [h.symm]
      · rw [if_neg hk] at h; simp only [List.map_cons, List.mem_cons]
        exact Or.inr (ih h)

/-! ## Control-flow shape of `insert`, and invariant preservation -/

/-- Every call to `insert` either rejects with `Ok(None)` leaving the pool
unchanged, errs on id computation leaving the pool unchanged, or admits:
stores the entry under its id and adds its size to the total. -/
theorem insert_shape (L : Ledger) (p : MemoryPool) (e : Entry) :
    p.insert L e = (.ok none, p)
    ∨ (e.transaction.transaction_id = none ∧ p.insert L e = (.error (), p))
    ∨ (∃ tid, e.transaction.transaction_id = some tid
        ∧ p.contains e = false
        ∧ p.insert L e = (.ok (some tid),
            ⟨mapInsert p.transactions tid e,
             p.total_size_in_bytes + e.size_in_bytes⟩)) := by
  unfold MemoryPool.insert
  by_cases h1 : (hasDuplicates e.transaction.old_serial_numbers
      || hasDuplicates e.transaction.new_commitments || p.contains e) = true
  · rw [if_pos h1]
    exact Or.inl rfl
  · rw [if_neg h1]
    have hcont : p.contains e = false := by
      rcases Bool.or_eq_false_iff.mp (Bool.eq_false_iff.mpr h1) with ⟨-, hc⟩
      exact hc
    by_cases h2 : (e.transaction.old_serial_numbers.any fun sn =>
        L.contains_sn sn || decide (sn ∈ (p.transactions.map
          (fun kv => kv.2.transaction.old_serial_numbers)).flatten)) = true
    · rw [if_pos h2]; exact Or.inl rfl
    · rw [if_neg h2]
      by_cases h3 : (e.transaction.new_commitments.any fun cm =>
          L.contains_cm cm || decide (cm ∈ (p.transactions.map
            (fun kv => kv.2.transaction.new_commitments)).flatten)) = true
      · rw [if_pos h3]; exact Or.inl rfl
      · rw [if_neg h3]
        by_cases h4 : (L.contains_memo e.transaction.memorandum
            || decide (e.transaction.memorandum ∈ p.transactions.map
              (fun kv => kv.2.transaction.memorandum))) = true
        · rw [if_pos h4]; exact Or.inl rfl
        · rw [if_neg h4]
          rcases hid : e.transaction.transaction_id with _ | tid
          · exact Or.inr (Or.inl ⟨rfl, rfl⟩)
          · exact Or.inr (Or.inr ⟨tid, rfl, hcont, rfl⟩)

/-- Duplicate-free keys plus invariant P1. -/
def WF (p : MemoryPool) : Prop :=
  (p.transactions.map Prod.fst).Nodup
    ∧ p.total_size_in_bytes = poolSum p.transactions

theorem WF_new : WF MemoryPool.new := by
  constructor <;> simp [MemoryPool.new, poolSum]

theorem mapLookup_isSome_of_mem_keys {β : Type} (m : List (Bytes × β))
    (k : Bytes) (h : k ∈ m.map Prod.fst) : (mapLookup m k).isSome = true := by
  induction m with
  | nil => simp at h
  | cons kv rest ih =>
      rw [mapLookup]
      by_cases hk : kv.1 = k
      · rw [if_pos hk]; rfl
      · rw [if_neg hk]
        simp only [List.map_cons, List.mem_cons] at h
        rcases h with h | h
        · exact absurd h.symm hk
        · exact ih h

theorem insert_WF (L : Ledger) (p : MemoryPool) (e : Entry) (h : WF p) :
    WF (p.insert L e).2 := by
  rcases insert_shape L p e with hs | ⟨-, hs⟩ | ⟨tid, hid, hcont, hs⟩
  · rw [hs]; exact h
  · rw [hs]; exact h
  · rw [hs]
    have hnk : mapContainsKey p.transactions tid = false := by
      unfold MemoryPool.contains at hcont
      rw [hid] at hcont
      exact hcont
    have herase : mapErase p.transactions tid = p.transactions :=
      mapErase_eq_self _ _ hnk
    constructor
    · show ((mapInsert p.transactions tid e).map Prod.fst).Nodup
      unfold mapInsert
      rw [herase]
      rw [List.map_cons, List.nodup_cons]
      refine ⟨?_, h.1⟩
      intro hmem
      have hsome := mapLookup_isSome_of_mem_keys p.transactions tid hmem
      rw [mapContainsKey] at hnk
      rw [hnk] at hsome
      cases hsome
    · show p.total_size_in_bytes + e.size_in_bytes
        = poolSum (mapInsert p.transactions tid e)
      unfold mapInsert
      rw [herase, poolSum_cons, h.2]
      show poolSum p.transactions + e.size_in_bytes
        = e.size_in_bytes + poolSum p.transactions
      omega

/-- Control-flow shape of `remove`: either the entry is absent (by id) and
nothing changes, or its id is a stored key, the binding is erased and the
*argument's* size is subtracted. -/
theorem remove_shape (p : MemoryPool) (e : Entry) :
    (p.contains e = false ∧ p.remove e = (.ok none, p))
    ∨ (∃ tid, e.transaction.transaction_id = some tid
        ∧ mapContainsKey p.transactions tid = true
        ∧ p.remove e = (.ok (some tid),
            ⟨mapErase p.transactions tid,
             p.total_size_in_bytes - e.size_in_bytes⟩)) := by
  rcases hid : e.transaction.transaction_id with _ | tid
  · have hcf : p.contains e = false := by
      unfold MemoryPool.contains
      rw [hid]
    left
    refine ⟨hcf, ?_⟩
    unfold MemoryPool.remove
    rw [hcf]
    simp
  · by_cases hk : mapContainsKey p.transactions tid = true
    · have hct : p.contains e = true := by
        unfold MemoryPool.contains
        rw [hid]
        exact hk
      right
      refine ⟨tid, rfl, hk, ?_⟩
      unfold MemoryPool.remove
      rw [hct, hid]
      simp
    · have hcf : p.contains e = false := by
        unfold MemoryPool.contains
        rw [hid]
        exact Bool.eq_false_iff.mpr hk
      left
      refine ⟨hcf, ?_⟩
      unfold MemoryPool.remove
      rw [hcf]
      simp

theorem remove_WF (p : MemoryPool) (e : Entry) (h : WF p)
    (hsafe : sizeConsistentRemove p e = true) : WF (p.remove e).2 := by
  rcases remove_shape p e with ⟨-, hs⟩ | ⟨tid, hid, hk, hs⟩
  · rw [hs]; exact h
  · rw [hs]
    rw [mapContainsKey] at hk
    rcases hlk : mapLookup p.transactions tid with _ | ent
    · rw [hlk] at hk; cases hk
    · unfold sizeConsistentRemove at hsafe
      rw [hid] at hsafe
      dsimp only at hsafe
      rw [hlk] at hsafe
      dsimp only at hsafe
      have hsz : ent.size_in_bytes = e.size_in_bytes := of_decide_eq_true hsafe
      constructor
      · exact List.Nodup.sublist (List.Sublist.map _ (keys_mapErase_sublist _ _)) h.1
      · show p.total_size_in_bytes - e.size_in_bytes
          = poolSum (mapErase p.transactions tid)
        have hps := poolSum_erase p.transactions tid ent h.1 hlk
        rw [h.2, hps, hsz]
        omega

theorem remove_by_hash_WF (p : MemoryPool) (tid : Bytes) (h : WF p) :
    WF (p.remove_by_hash tid).2 := by
  unfold MemoryPool.remove_by_hash
  rcases hlk : mapLookup p.transactions tid with _ | ent
  · exact h
  · constructor
    · exact List.Nodup.sublist (List.Sublist.map _ (keys_mapErase_sublist _ _)) h.1
    · show p.total_size_in_bytes - ent.size_in_bytes = poolSum (mapErase p.transactions tid)
      have := poolSum_erase p.transactions tid ent h.1 hlk
      rw [h.2, this]
      omega

theorem insertAll_WF (L : Ledger) :
    ∀ (es : List Entry) (acc q : MemoryPool), WF acc →
      insertAll L acc es = .ok q → WF q := by
  intro es
  induction es with
  | nil =>
      intro acc q hacc hq
      rw [insertAll] at hq
      injection hq with hq
      rw [← hq]; exact hacc
  | cons e rest ih =>
      intro acc q hacc hq
      rw [insertAll] at hq
      rcases hins : acc.insert L e with ⟨r, p'⟩
      rw [hins] at hq
      rcases r with u | v
      · cases hq
      · have hp' : WF p' := by
          have := insert_WF L acc e hacc
          rw [hins] at this
          exact this
        exact ih p' q hp' hq

theorem cleanse_WF (p : MemoryPool) (L : Ledger) (h : WF p) :
    WF (p.cleanse L).2 := by
  unfold MemoryPool.cleanse
  split
  · next q hq => exact insertAll_WF L _ _ _ WF_new hq
  · next => exact h

theorem from_storage_WF (decode : Bytes → Except Unit (List Transaction))
    (L : Ledger) (mp : MemoryPool)
    (h : MemoryPool.from_storage decode L = .ok mp) : WF mp := by
  unfold MemoryPool.from_storage at h
  dsimp only at h
  split at h
  · next serialized heq =>
      split at h
      · next txs heq2 => exact insertAll_WF L _ _ _ WF_new h
      · next => injection h with h; rw [← h]; exact WF_new
  · next => injection h with h; rw [← h]; exact WF_new
  · next => injection h with h; rw [← h]; exact WF_new

theorem runOps_cons (p : MemoryPool) (op : PoolOp) (ops : List PoolOp) :
    runOps p (op :: ops) = runOps (applyOp p op) ops := rfl

theorem runOps_WF : ∀ (ops : List PoolOp) (p : MemoryPool), WF p →
    safeOps p ops = true → WF (runOps p ops) := by
  intro ops
  induction ops with
  | nil => intro p h _; exact h
  | cons op rest ih =>
      intro p h hsafe
      rw [runOps_cons]
      rcases op with ⟨L', e'⟩ | ⟨e'⟩ | ⟨tid'⟩ | ⟨L'⟩
      · simp only [safeOps, Bool.and_eq_true, Bool.true_and] at hsafe
        exact ih _ (insert_WF L' p e' h) hsafe
      · simp only [safeOps, Bool.and_eq_true] at hsafe
        exact ih _ (remove_WF p e' h hsafe.1) hsafe.2
      · simp only [safeOps, Bool.and_eq_true, Bool.true_and] at hsafe
        exact ih _ (remove_by_hash_WF p tid' h) hsafe
      · simp only [safeOps, Bool.and_eq_true, Bool.true_and] at hsafe
        exact ih _ (cleanse_WF p L' h) hsafe

/-! ## Candidate-selection lemmas -/

/-- The selection loop appends entries drawn from the scanned list, and
the accumulator grows by exactly their sizes. -/
theorem selectEntries_inv (L : Ledger) (maxPayload : Nat) :
    ∀ (entries : List (Bytes × Entry)) (bs : Nat) (sel : List Entry),
      ∃ extra : List Entry,
        (selectEntries L maxPayload entries bs sel).2 = sel ++ extra
        ∧ (selectEntries L maxPayload entries bs sel).1
            = bs + (extra.map Entry.size_in_bytes).sum
        ∧ ∀ e ∈ extra, e ∈ entries.map Prod.snd := by
  intro entries
  induction entries with
  | nil =>
      intro bs sel
      exact ⟨[], by simp [selectEntries]⟩
  | cons kv rest ih =>
      intro bs sel
      rw [selectEntries]
      by_cases hfit : bs + kv.2.size_in_bytes ≤ maxPayload
      · rw [if_pos hfit]
        by_cases hconf : (L.transaction_conflicts kv.2.transaction
            || listConflicts (sel.map Entry.transaction) kv.2.transaction) = true
        · rw [if_pos hconf]
          rcases ih bs sel with ⟨extra, h1, h2, h3⟩
          exact ⟨extra, h1, h2, fun e he => by
            simp only [List.map_cons, List.mem_cons]
            exact Or.inr (h3 e he)⟩
        · rw [if_neg hconf]
          rcases ih (bs + kv.2.size_in_bytes) (sel ++ [kv.2]) with ⟨extra, h1, h2, h3⟩
          refine ⟨kv.2 :: extra, ?_, ?_, ?_⟩
          · rw [h1, List.append_assoc]
            rfl
          · rw [h2, List.map_cons, List.sum_cons]
            omega
          · intro e he
            simp only [List.map_cons, List.mem_cons]
            rcases List.mem_cons.mp he with he | he
            · exact Or.inl he
            · exact Or.inr (h3 e he)
      · rw [if_neg hfit]
        rcases ih bs sel with ⟨extra, h1, h2, h3⟩
        exact ⟨extra, h1, h2, fun e he => by
          simp only [List.map_cons, List.mem_cons]
          exact Or.inr (h3 e he)⟩

/-- The accumulated block size never exceeds the payload budget. -/
theorem selectEntries_fst_le (L : Ledger) (maxPayload : Nat) :
    ∀ (entries : List (Bytes × Entry)) (bs : Nat) (sel : List Entry),
      bs ≤ maxPayload → (selectEntries L maxPayload entries bs sel).1 ≤ maxPayload := by
  intro entries
  induction entries with
  | nil =>
      intro bs sel h
      exact h
  | cons kv rest ih =>
      intro bs sel h
      rw [selectEntries]
      by_cases hfit : bs + kv.2.size_in_bytes ≤ maxPayload
      · rw [if_pos hfit]
        by_cases hconf : (L.transaction_conflicts kv.2.transaction
            || listConflicts (sel.map Entry.transaction) kv.2.transaction) = true
        · rw [if_pos hconf]
          exact ih bs sel h
        · rw [if_neg hconf]
          exact ih (bs + kv.2.size_in_bytes) (sel ++ [kv.2]) hfit
      · rw [if_neg hfit]
        exact ih bs sel h

/-! ## Block-ordering lemmas -/

/-- One `orderRound` keeps the output duplicate-free and covered by the
`seen` set. -/
theorem orderRound_inv (i : Nat) :
    ∀ (l : List (Nat × List Bytes)) (seen acc : List Bytes) (f : Bool),
      acc.Nodup → (∀ x ∈ acc, x ∈ seen) →
      (orderRound i l seen acc f).2.2.Nodup
        ∧ ∀ x ∈ (orderRound i l seen acc f).2.2, x ∈ (orderRound i l seen acc f).2.1 := by
  intro l
  induction l with
  | nil =>
      intro seen acc f h1 h2
      exact ⟨h1, h2⟩
  | cons pr rest ih =>
      intro seen acc f h1 h2
      rw [orderRound]
      rcases pr.2.get? i with _ | h
      · exact ih seen acc f h1 h2
      · dsimp only
        by_cases hseen : h ∈ seen
        · rw [if_pos (by simpa using hseen)]
          exact ih seen acc true h1 h2
        · rw [if_neg (by simpa using hseen)]
          apply ih (h :: seen) (acc ++ [h]) true
          · rw [List.nodup_append]
            refine ⟨h1, List.nodup_singleton h, ?_⟩
            intro x hx
            simp only [List.mem_singleton]
            intro he
            exact hseen (he ▸ h2 x hx)
          · intro x hx
            rcases List.mem_append.mp hx with hx | hx
            · exact List.mem_cons_of_mem h (h2 x hx)
            · simp only [List.mem_singleton] at hx
              exact hx ▸ List.mem_cons_self h seen

/-- The outer loop preserves duplicate-freeness of the output. -/
theorem orderLoop_nodup (input : List (Nat × List Bytes)) :
    ∀ (fuel i : Nat) (seen acc : List Bytes),
      acc.Nodup → (∀ x ∈ acc, x ∈ seen) →
      (orderLoop input fuel i seen acc).Nodup := by
  intro fuel
  induction fuel with
  | zero =>
      intro i seen acc h1 _
      exact h1
  | succ fuel ih =>
      intro i seen acc h1 h2
      rw [orderLoop]
      rcases hr : orderRound i input seen acc false with ⟨found, seen', acc'⟩
      have hinv := orderRound_inv i input seen acc false h1 h2
      rw [hr] at hinv
      dsimp only
      by_cases hf : found = true
      · rw [if_pos hf]
        exact ih (i + 1) seen' acc' hinv.1 hinv.2
      · rw [if_neg hf]
        exact hinv.1

/-- The function `order_block_hashes` emits no hash twice. -/
theorem order_block_hashes_nodup (input : List (Nat × List Bytes)) :
    (order_block_hashes input).Nodup :=
  orderLoop_nodup input _ 0 [] [] List.nodup_nil (by intro x hx; cases hx)

/-! ## Ingestion lemmas -/

/-- When every `process_received_block` call succeeds, the ingestion loop
over a duplicate-free plan processes exactly the planned hashes that have
a received block, in plan order. -/
theorem ingestRun_eq_filter (proc : Bytes → SyncBlock → Except Unit Unit)
    (hproc : ∀ h b, proc h b = .ok ()) :
    ∀ (order : List Bytes) (m : List (Bytes × SyncBlock)), order.Nodup →
      ingestRun proc order m
        = .ok (order.filter (fun h => mapContainsKey m h)) := by
  intro order
  induction order with
  | nil =>
      intro m _
      rfl
  | cons h rest ih =>
      intro m hnd
      rw [List.nodup_cons] at hnd
      rw [ingestRun]
      rcases hlk : mapLookup m h with _ | b
      · rw [List.filter_cons_of_neg (by simp [mapContainsKey, hlk])]
        exact ih m hnd.2
      · dsimp only
        rw [hproc h b]
        dsimp only
        rw [ih (mapErase m h) hnd.2]
        rw [List.filter_cons_of_pos (by simp [mapContainsKey, hlk])]
        dsimp only [Except.map]
        congr 1
        congr 1
        apply List.filter_congr
        intro k hk
        have hne : k ≠ h := fun he => hnd.1 (he ▸ hk)
        rw [mapContainsKey, mapContainsKey, mapLookup_erase_ne m h k hne]

/-! ## Peer-sorting lemmas -/

theorem insertDesc_perm (x : Peer) (l : List Peer) :
    (insertDesc x l).Perm (x :: l) := by
  induction l with
  | nil => exact List.Perm.refl _
  | cons y ys ih =>
      rw [insertDesc]
      by_cases hc : y.block_height ≤ x.block_height
      · rw [if_pos hc]
      · rw [if_neg hc]
        exact (List.Perm.cons y ih).trans (List.Perm.swap x y ys)

theorem sortPeersDesc_perm (l : List Peer) : (sortPeersDesc l).Perm l := by
  induction l with
  | nil => exact List.Perm.refl _
  | cons x xs ih =>
      rw [sortPeersDesc]
      exact (insertDesc_perm x (sortPeersDesc xs)).trans (List.Perm.cons x ih)

/-- The descending-height ordering maintained by the sort. -/
def heightGE (a b : Peer) : Prop := b.block_height ≤ a.block_height

theorem insertDesc_sorted (x : Peer) (l : List Peer)
    (h : l.Pairwise heightGE) : (insertDesc x l).Pairwise heightGE := by
  induction l with
  | nil => simp [insertDesc]
  | cons y ys ih =>
      rw [List.pairwise_cons] at h
      rw [insertDesc]
      by_cases hc : y.block_height ≤ x.block_height
      · rw [if_pos hc]
        rw [List.pairwise_cons]
        refine ⟨?_, List.pairwise_cons.mpr h⟩
        intro b hb
        rcases List.mem_cons.mp hb with hb | hb
        · rw [hb]; exact hc
        · exact le_trans (h.1 b hb) hc
      · rw [if_neg hc]
        rw [List.pairwise_cons]
        refine ⟨?_, ih h.2⟩
        intro b hb
        have hb' := (insertDesc_perm x ys).mem_iff.mp hb
        rcases List.mem_cons.mp hb' with hb' | hb'
        · rw [hb']
          exact le_of_lt (Nat.lt_of_not_le hc)
        · exact h.1 b hb'

theorem sortPeersDesc_sorted (l : List Peer) :
    (sortPeersDesc l).Pairwise heightGE := by
  induction l with
  | nil => simp [sortPeersDesc]
  | cons x xs ih =>
      rw [sortPeersDesc]
      exact insertDesc_sorted x _ ih

/-- The `position`-then-`truncate` step is prefix-plus-first-match. -/
theorem truncPosition_eq {α : Type} (p : α → Bool) (l : List α) :
    (match listPosition p l with
      | some i => l.take (i + 1)
      | none => l)
    = l.takeWhile (fun a => !p a) ++ (l.dropWhile (fun a => !p a)).take 1 := by
  induction l with
  | nil => rfl
  | cons x xs ih =>
      rw [listPosition]
      by_cases hp : p x = true
      · rw [if_pos hp]
        rw [List.takeWhile_cons, List.dropWhile_cons, hp]
        simp
      · rw [if_neg hp]
        have hp' : p x = false := Bool.eq_false_iff.mpr hp
        rw [List.takeWhile_cons, List.dropWhile_cons, hp']
        simp only [Bool.not_false, if_true, List.cons_append]
        rcases hpos : listPosition p xs with _ | i
        · rw [hpos] at ih
          simp only [Option.map_none']
          exact congrArg (fun t => x :: t) ih
        · rw [hpos] at ih
          simp only [Option.map_some']
          show x :: xs.take (i + 1)
            = x :: (xs.takeWhile (fun a => !p a)
                ++ (xs.dropWhile (fun a => !p a)).take 1)
          exact congrArg (fun t => x :: t) ih

theorem dropWhile_head_false {α : Type} (p : α → Bool) :
    ∀ (l : List α) (x : α) (xs : List α), l.dropWhile p = x :: xs → p x = false := by
  intro l
  induction l with
  | nil => intro x xs h; cases h
  | cons y ys ih =>
      intro x xs h
      rw [List.dropWhile_cons] at h
      by_cases hy : p y = true
      · rw [if_pos hy] at h
        exact ih x xs h
      · rw [if_neg hy] at h
        injection h with h1 _
        rw [← h1]
        exact Bool.eq_false_iff.mpr hy

/-! ## Concrete fixtures used by witnesses and counterexamples -/

/-- A small transaction with id `[1]`. -/
def txA : Transaction := ⟨[[10]], [[11]], [1], some [1], 5⟩

/-- A small transaction with id `[2]`, disjoint from `txA`. -/
def txB : Transaction := ⟨[[20]], [[21]], [2], some [2], 5⟩

/-- An empty ledger whose memory-pool slot reads back empty. -/
def ledger0 : Ledger := ⟨[], [], [], .ok none⟩

/-- An empty ledger whose memory-pool slot read fails. -/
def ledgerErr : Ledger := ⟨[], [], [], .error ()⟩

def entryA : Entry := ⟨5, txA⟩

def entryB : Entry := ⟨5, txB⟩

/-- Same transaction as `entryA` but with a mismatched size field. -/
def entryAbad : Entry := ⟨7, txA⟩

/-- A pool holding exactly `entryA`. -/
def poolA : MemoryPool := ⟨[([1], entryA)], 5⟩

/-! ## Claim C1 -/

/-- C1, counterexample: with id `[1]` stored at size 5 and total 10,
`remove` called with the same transaction but argument size 7 leaves
total 3 — the code subtracts the *argument's* size, not the stored
entry's 5 as the claim states. -/
theorem claim_C1_counterexample :
    (MemoryPool.remove ⟨[([1], entryA)], 10⟩ entryAbad).2.total_size_in_bytes = 3
    ∧ (mapLookup (⟨[([1], entryA)], 10⟩ : MemoryPool).transactions [1]).map
        Entry.size_in_bytes = some 5
    ∧ (MemoryPool.remove ⟨[([1], entryA)], 10⟩ entryAbad).1 = .ok (some [1])
    ∧ ¬ (MemoryPool.remove ⟨[([1], entryA)], 10⟩
          entryAbad).2.total_size_in_bytes = 10 - 5 := by
  refine ⟨rfl, rfl, rfl, ?_⟩
  decide

/-- C1 (amended): for an entry whose id is a stored key, `remove` erases
that binding, decrements `total_size_in_bytes` by the *argument's* size
field (equal to the stored size whenever the pool invariant holds), and
returns the id; for an absent entry it returns `None` and changes
nothing. -/
theorem claim_C1_remove_argument_size (p : MemoryPool) (e : Entry) :
    (∀ tid, e.transaction.transaction_id = some tid →
        mapContainsKey p.transactions tid = true →
        p.remove e = (.ok (some tid),
          ⟨mapErase p.transactions tid,
           p.total_size_in_bytes - e.size_in_bytes⟩))
    ∧ (p.contains e = false → p.remove e = (.ok none, p)) := by
  constructor
  · intro tid hid hk
    rcases remove_shape p e with ⟨hc, hs⟩ | ⟨tid2, hid2, hk2, hs⟩
    · unfold MemoryPool.contains at hc
      rw [hid] at hc
      dsimp only at hc
      rw [hk] at hc
      cases hc
    · rw [hid] at hid2
      injection hid2 with hh
      subst hh
      exact hs
  · intro hc
    rcases remove_shape p e with ⟨hc2, hs⟩ | ⟨tid2, hid2, hk2, hs⟩
    · exact hs
    · unfold MemoryPool.contains at hc
      rw [hid2] at hc
      dsimp only at hc
      rw [hk2] at hc
      cases hc

/-- C1 witness: removing the stored entry itself from `poolA` empties the
pool and zeroes the total. -/
theorem claim_C1_witness :
    MemoryPool.remove poolA entryA = (.ok (some [1]), ⟨[], 0⟩) := by
  have h := (claim_C1_remove_argument_size poolA entryA).1 [1] rfl rfl
  rw [h]
  rfl

/-! ## Claim C2 -/

/-- C2, counterexample: insert two size-5 entries, then `remove` with the
first transaction but a size field of 7.  The total becomes 3 while the
stored sizes sum to 5, so P1 fails on a pool reachable by
insert/remove alone. -/
theorem claim_C2_counterexample :
    (runOps MemoryPool.new
        [.ins ledger0 entryA, .ins ledger0 entryB, .rem entryAbad]).total_size_in_bytes
      ≠ poolSum (runOps MemoryPool.new
        [.ins ledger0 entryA, .ins ledger0 entryB, .rem entryAbad]).transactions := by
  decide

/-- C2 (amended): along any operation sequence in which every `remove`
argument's size field agrees with the size stored under its id,
`total_size_in_bytes` equals the sum of stored entry sizes — both from
the empty pool and from any `from_storage` restoration. -/
theorem claim_C2_size_invariant :
    (∀ ops : List PoolOp, safeOps MemoryPool.new ops = true →
        (runOps MemoryPool.new ops).total_size_in_bytes
          = poolSum (runOps MemoryPool.new ops).transactions)
    ∧ (∀ (decode : Bytes → Except Unit (List Transaction)) (L : Ledger)
          (mp : MemoryPool) (ops : List PoolOp),
        MemoryPool.from_storage decode L = .ok mp → safeOps mp ops = true →
        (runOps mp ops).total_size_in_bytes
          = poolSum (runOps mp ops).transactions) := by
  constructor
  · intro ops h
    exact (runOps_WF ops MemoryPool.new WF_new h).2
  · intro decode L mp ops hfs h
    exact (runOps_WF ops mp (from_storage_WF decode L mp hfs) h).2

/-- C2 witness: a concrete safe insert/remove sequence keeps P1. -/
theorem claim_C2_witness :
    safeOps MemoryPool.new [.ins ledger0 entryA, .rem entryA] = true
    ∧ (runOps MemoryPool.new [.ins ledger0 entryA, .rem entryA]).total_size_in_bytes
        = poolSum (runOps MemoryPool.new
            [.ins ledger0 entryA, .rem entryA]).transactions :=
  ⟨by decide, claim_C2_size_invariant.1 _ (by decide)⟩

/-! ## Claim C3 -/

/-- C3: `insert` answers `Ok(None)` exactly on semantic rejection with the
pool untouched, errs only when the transaction id fails to compute (the
ledger reads are infallible booleans, so no storage-level `Err` arises
here) again with the pool untouched, and answers `Ok(Some(tid))` exactly
when it admits: it stores the entry under `tid` and adds its size. -/
theorem claim_C3_insert_error_semantics (L : Ledger) (p : MemoryPool) (e : Entry) :
    ((p.insert L e).1 = .ok none → (p.insert L e).2 = p)
    ∧ ((p.insert L e).1 = .error () →
        e.transaction.transaction_id = none ∧ (p.insert L e).2 = p)
    ∧ (∀ tid, (p.insert L e).1 = .ok (some tid) →
        e.transaction.transaction_id = some tid
        ∧ (p.insert L e).2.transactions = mapInsert p.transactions tid e
        ∧ (p.insert L e).2.total_size_in_bytes
            = p.total_size_in_bytes + e.size_in_bytes) := by
  rcases insert_shape L p e with hs | ⟨hid, hs⟩ | ⟨tid, hid, hcont, hs⟩
  · rw [hs]
    exact ⟨fun _ => rfl, fun h => by simp at h, fun tid h => by simp at h⟩
  · rw [hs]
    exact ⟨fun h => by simp at h, fun _ => ⟨hid, rfl⟩, fun tid h => by simp at h⟩
  · rw [hs]
    refine ⟨fun h => by simp at h, fun h => by simp at h, fun tid2 h => ?_⟩
    have hh : tid = tid2 := by simpa using h
    subst hh
    exact ⟨hid, rfl, rfl⟩

/-- C3 witness: re-inserting into `poolA` is a rejection that leaves the
pool unchanged. -/
theorem claim_C3_witness :
    (MemoryPool.insert poolA ledger0 entryA).2 = poolA :=
  (claim_C3_insert_error_semantics ledger0 poolA entryA).1 rfl

/-! ## Claim C4 -/

/-- C4, counterexample: a failing memory-pool read is *not* propagated —
`from_storage` falls through `if let Ok(Some(..))` and returns an empty
pool with `Ok`, contradicting the claimed `Err`. -/
theorem claim_C4_counterexample :
    MemoryPool.from_storage (fun _ => .error ()) ledgerErr = .ok MemoryPool.new
    ∧ ledgerErr.memory_pool_blob = .error () :=
  ⟨rfl, rfl⟩

/-- C4 (amended): `from_storage` tolerates a storage read error, an
absent blob, and a failed decode alike, returning `Ok` with an empty
pool; it returns `Err` only when re-admitting a decoded transaction via
`insert` fails. -/
theorem claim_C4_from_storage_tolerant
    (decode : Bytes → Except Unit (List Transaction)) (L : Ledger) :
    (L.memory_pool_blob = .error () →
        MemoryPool.from_storage decode L = .ok MemoryPool.new)
    ∧ (L.memory_pool_blob = .ok none →
        MemoryPool.from_storage decode L = .ok MemoryPool.new)
    ∧ (∀ b, L.memory_pool_blob = .ok (some b) → decode b = .error () →
        MemoryPool.from_storage decode L = .ok MemoryPool.new)
    ∧ (∀ u, MemoryPool.from_storage decode L = .error u →
        ∃ b txs, L.memory_pool_blob = .ok (some b) ∧ decode b = .ok txs
          ∧ insertAll L MemoryPool.new
              (txs.map (fun t => ⟨t.size, t⟩)) = .error ()) := by
  refine ⟨?_, ?_, ?_, ?_⟩
  · intro h
    unfold MemoryPool.from_storage
    rw [h]
  · intro h
    unfold MemoryPool.from_storage
    rw [h]
  · intro b h hd
    unfold MemoryPool.from_storage
    rw [h]
    dsimp only
    rw [hd]
  · intro u h
    unfold MemoryPool.from_storage at h
    dsimp only at h
    rcases hb : L.memory_pool_blob with u2 | ob
    · rw [hb] at h
      cases h
    · rcases ob with _ | b
      · rw [hb] at h
        cases h
      · rw [hb] at h
        dsimp only at h
        rcases hd : decode b with u3 | txs
        · rw [hd] at h
          cases h
        · rw [hd] at h
          dsimp only at h
          cases u
          exact ⟨b, txs, rfl, hd, h⟩

/-- C4 witness: the tolerant read at the failing ledger. -/
theorem claim_C4_witness :
    MemoryPool.from_storage (fun _ => .ok []) ledgerErr = .ok MemoryPool.new :=
  (claim_C4_from_storage_tolerant (fun _ => .ok []) ledgerErr).1 rfl

/-! ## Claim C9 -/

/-- C9: inserting an entry whose transaction id is already a key of the
pool returns `Ok(None)` and leaves the pool (map and total) unchanged. -/
theorem claim_C9_reinsert_noop (L : Ledger) (p : MemoryPool) (e : Entry)
    (tid : Bytes) (hid : e.transaction.transaction_id = some tid)
    (hk : mapContainsKey p.transactions tid = true) :
    p.insert L e = (.ok none, p) := by
  have hc : p.contains e = true := by
    unfold MemoryPool.contains
    rw [hid]
    exact hk
  rcases insert_shape L p e with hs | ⟨hid2, hs⟩ | ⟨tid2, hid2, hcont, hs⟩
  · exact hs
  · rw [hid] at hid2
    cases hid2
  · rw [hc] at hcont
    cases hcont

/-- C9 witness: re-inserting `entryA` into `poolA` is a no-op. -/
theorem claim_C9_witness :
    MemoryPool.insert poolA ledger0 entryA = (.ok none, poolA) :=
  claim_C9_reinsert_noop ledger0 poolA entryA [1] rfl rfl

/-! ## Claim C10 -/

/-- C10: for any `max_size` below `BLOCK_HEADER_SIZE +
COINBASE_TRANSACTION_SIZE` (the header size `bhs` being the external
fixed constant), the unguarded `usize` subtraction at the top of
`get_candidates` underflows — modelled as the `none` result — so callers
must satisfy the precondition. -/
theorem claim_C10_candidates_underflow (p : MemoryPool) (L : Ledger)
    (bhs max_size : Nat) (h : max_size < bhs + COINBASE_TRANSACTION_SIZE) :
    p.get_candidates L bhs max_size = none := by
  unfold MemoryPool.get_candidates
  rw [if_neg]
  omega

/-- C10 witness: a 2000-byte budget underflows against a 1088-byte
header plus the 1490-byte coinbase reservation. -/
theorem claim_C10_witness :
    MemoryPool.new.get_candidates ledger0 1088 2000 = none
    ∧ 2000 < 1088 + COINBASE_TRANSACTION_SIZE :=
  ⟨claim_C10_candidates_underflow MemoryPool.new ledger0 1088 2000 (by decide),
   by decide⟩

/-! ## Claim C7 -/

/-- C7: whenever `max_size` covers the header-plus-coinbase reservation
and the pool's entry sizes agree with their transactions' sizes, the
candidates returned by `get_candidates` have combined size at most
`max_size - BLOCK_HEADER_SIZE - COINBASE_TRANSACTION_SIZE`, for any pool
contents and any (map-iteration) order of the stored entries. -/
theorem claim_C7_candidates_bound (p : MemoryPool) (L : Ledger)
    (bhs max_size : Nat) (cands : List Transaction)
    (hmax : bhs + COINBASE_TRANSACTION_SIZE ≤ max_size)
    (hsz : ∀ kv ∈ p.transactions, kv.2.size_in_bytes = kv.2.transaction.size)
    (hc : p.get_candidates L bhs max_size = some cands) :
    (cands.map Transaction.size).sum
      ≤ max_size - bhs - COINBASE_TRANSACTION_SIZE := by
  unfold MemoryPool.get_candidates at hc
  rw [if_pos hmax] at hc
  injection hc with hc
  rcases selectEntries_inv L (max_size - (bhs + COINBASE_TRANSACTION_SIZE))
      p.transactions 0 [] with ⟨extra, h1, h2, h3⟩
  have hle := selectEntries_fst_le L (max_size - (bhs + COINBASE_TRANSACTION_SIZE))
      p.transactions 0 [] (Nat.zero_le _)
  rw [h2] at hle
  have hcands : cands = extra.map Entry.transaction := by
    rw [← hc, h1]
    simp
  have hsum : (cands.map Transaction.size).sum
      = (extra.map Entry.size_in_bytes).sum := by
    rw [hcands, List.map_map]
    congr 1
    apply List.map_congr_left
    intro e he
    rcases List.mem_map.mp (h3 e he) with ⟨kv, hkv, hkv2⟩
    have hkv3 := hsz kv hkv
    rw [hkv2] at hkv3
    exact hkv3.symm
  rw [hsum]
  omega

/-- C7 witness: with `poolA`, a budget of exactly header + coinbase + 5
admits `txA` and meets the bound with equality. -/
theorem claim_C7_witness :
    poolA.get_candidates ledger0 1088 2583 = some [txA]
    ∧ ([txA].map Transaction.size).sum
        ≤ 2583 - 1088 - COINBASE_TRANSACTION_SIZE :=
  ⟨by decide,
   claim_C7_candidates_bound poolA ledger0 1088 2583 [txA]
     (by decide) (by decide) (by decide)⟩

/-! ## Claim C8 -/

/-- C8: with `process_received_block` (abstracted as `proc`) succeeding,
the ingestion loop of `run` invokes it exactly for the planned hashes
that have a received block, in the order of the PlanBlocks list
(`order_block_hashes` filtered of ledger-known hashes); a planned hash
with no received block is only logged and does not stop later calls. -/
theorem claim_C8_ingestion_order (proc : Bytes → SyncBlock → Except Unit Unit)
    (known : Bytes → Bool) (input : List (Nat × List Bytes))
    (m : List (Bytes × SyncBlock))
    (hproc : ∀ h b, proc h b = .ok ()) :
    ingestRun proc (planOrder known input) m
      = .ok ((planOrder known input).filter (fun h => mapContainsKey m h)) := by
  apply ingestRun_eq_filter proc hproc
  exact List.Nodup.filter _ (order_block_hashes_nodup input)

/-- C8 witness: plan `[[1],[2]]` with only block `[2]` received —
ingestion skips the gap at `[1]` and still processes `[2]`. -/
theorem claim_C8_witness :
    ingestRun (fun _ _ => .ok ())
        (planOrder (fun _ => false) [(0, [[1], [2]])]) [([2], ⟨7, [9]⟩)]
      = .ok [[2]] := by
  have h := claim_C8_ingestion_order (fun _ _ => .ok ()) (fun _ => false)
    [(0, [[1], [2]])] [([2], ⟨7, [9]⟩)] (fun _ _ => rfl)
  rw [h]
  rfl

/-! ## Claim C6 -/

/-- Index of the first occurrence of `x` (length of `out` when absent). -/
def idxOf : List Bytes → Bytes → Nat
  | [], _ => 0
  | y :: ys, x => if y = x then 0 else idxOf ys x + 1

/-- The per-peer order-preservation property asserted by the claim,
stated from the claim's words for comparison with the source behavior:
within each peer's advertised list, an earlier hash appears no later in
the output than a later one. -/
def peerOrderKept (input : List (Nat × List Bytes)) (out : List Bytes) : Prop :=
  ∀ pr ∈ input, pr.2.Pairwise (fun x y => x = y ∨ idxOf out x < idxOf out y)

instance (input : List (Nat × List Bytes)) (out : List Bytes) :
    Decidable (peerOrderKept input out) := by
  unfold peerOrderKept
  infer_instance

/-- C6, counterexample: `[(A, [x, a, b]), (B, [b])]` orders as
`[x, b, a]` — peer `A` lists `a` before `b`, but the output places `b`
first, so the traversal does not preserve each peer's relative order. -/
theorem claim_C6_counterexample :
    order_block_hashes [(0, [[0], [1], [2]]), (1, [[2]])] = [[0], [2], [1]]
    ∧ ¬ peerOrderKept [(0, [[0], [1], [2]]), (1, [[2]])]
        (order_block_hashes [(0, [[0], [1], [2]]), (1, [[2]])]) := by
  constructor
  · decide
  · decide

/-- C6 (amended): `order_block_hashes` performs the column-major
traversal with duplicate suppression: on the claim's example it yields
`[h1, h2, h4, h3]` for distinct hashes, and for every input the output
is duplicate-free; each peer's relative order, however, is preserved
only up to promotion of a hash by another peer's earlier column. -/
theorem claim_C6_column_major (a b : Nat) (h1 h2 h3 h4 : Bytes)
    (hd : ([h1, h2, h3, h4] : List Bytes).Nodup) :
    order_block_hashes [(a, [h1, h2, h3]), (b, [h1, h4])] = [h1, h2, h4, h3]
    ∧ ∀ input, (order_block_hashes input).Nodup := by
  constructor
  · have n12 : h1 ≠ h2 := fun h => by subst h; simp at hd
    have n13 : h1 ≠ h3 := fun h => by subst h; simp at hd
    have n14 : h1 ≠ h4 := fun h => by subst h; simp at hd
    have n23 : h2 ≠ h3 := fun h => by subst h; simp at hd
    have n24 : h2 ≠ h4 := fun h => by subst h; simp at hd
    have n34 : h3 ≠ h4 := fun h => by subst h; simp at hd
    simp [order_block_hashes, maxHashLen, orderLoop, orderRound, List.get?,
          n12, n13, n14, n23, n24, n34, Ne.symm n12, Ne.symm n13, Ne.symm n14,
          Ne.symm n23, Ne.symm n24, Ne.symm n34]
  · intro input
    exact order_block_hashes_nodup input

/-- C6 witness: the example at concrete distinct hashes. -/
theorem claim_C6_witness :
    order_block_hashes [(0, [[1], [2], [3]]), (1, [[1], [4]])]
      = [[1], [2], [4], [3]] :=
  (claim_C6_column_major 0 1 [1] [2] [3] [4] (by decide)).1

/-! ## Claim C5 -/

/-- C5, counterexample: with our height 100 and good peers at heights 105
and 103 — both more than one ahead, *neither* more than ten ahead — the
code still truncates, keeping only the 105 peer, while the claim says all
filtered peers are kept when no peer is more than 10 ahead. -/
theorem claim_C5_counterexample :
    find_sync_nodes 100 [⟨0, 105, false⟩, ⟨1, 103, false⟩] = [⟨0, 105, false⟩]
    ∧ (⟨1, 103, false⟩ : Peer) ∉ find_sync_nodes 100 [⟨0, 105, false⟩, ⟨1, 103, false⟩]
    ∧ (!(Peer.judge_bad ⟨1, 103, false⟩) && decide (100 + 1 < 103)) = true
    ∧ ¬ (100 + 10 < 105) ∧ ¬ (100 + 10 < 103) := by
  refine ⟨by decide, by decide, by decide, by decide, by decide⟩

/-- The filter-sort-truncate pipeline of `find_sync_nodes`, written as
prefix-plus-first-match. -/
theorem find_sync_nodes_decomp (our : Nat) (peers : List Peer) :
    find_sync_nodes our peers
      = (sortPeersDesc (peers.filter
            (fun q => !q.judge_bad && decide (our + 1 < q.block_height)))).takeWhile
          (fun q => !decide (q.block_height ≤ our + 10))
        ++ ((sortPeersDesc (peers.filter
            (fun q => !q.judge_bad && decide (our + 1 < q.block_height)))).dropWhile
          (fun q => !decide (q.block_height ≤ our + 10))).take 1 := by
  unfold find_sync_nodes
  exact truncPosition_eq _ _

/-- C5 (amended): `find_sync_nodes` keeps exactly peers passing
`!judge_bad` and `block_height > our + 1`, sorted descending by height,
and truncates whenever some filtered peer has height at most `our + 10`:
it keeps every peer strictly more than 10 ahead plus the first (tallest)
peer within 10 — the kept list then ends with that peer and nothing
follows it — and when every filtered peer is more than 10 ahead, all
filtered peers are kept. -/
theorem claim_C5_peer_selection (our : Nat) (peers : List Peer) :
    (∀ q ∈ find_sync_nodes our peers,
        q.judge_bad = false ∧ our + 1 < q.block_height)
    ∧ (find_sync_nodes our peers).Pairwise heightGE
    ∧ (∀ q ∈ peers, q.judge_bad = false → our + 10 < q.block_height →
        q ∈ find_sync_nodes our peers)
    ∧ (∀ q ∈ (find_sync_nodes our peers).dropLast, our + 10 < q.block_height)
    ∧ ((∀ q ∈ peers, q.judge_bad = false → our + 1 < q.block_height →
          our + 10 < q.block_height) →
        (find_sync_nodes our peers).Perm
          (peers.filter
            (fun q => !q.judge_bad && decide (our + 1 < q.block_height))))
    ∧ (∀ q ∈ peers, q.judge_bad = false → our + 1 < q.block_height →
        q.block_height ≤ our + 10 →
        ∃ d, (find_sync_nodes our peers).getLast? = some d
          ∧ d ∈ find_sync_nodes our peers
          ∧ d.block_height ≤ our + 10
          ∧ q.block_height ≤ d.block_height) := by
  have hdec := find_sync_nodes_decomp our peers
  have hperm := sortPeersDesc_perm (peers.filter
    (fun q => !q.judge_bad && decide (our + 1 < q.block_height)))
  have hsorted := sortPeersDesc_sorted (peers.filter
    (fun q => !q.judge_bad && decide (our + 1 < q.block_height)))
  have hsplit := List.takeWhile_append_dropWhile
    (fun q => !decide (q.block_height ≤ our + 10))
    (sortPeersDesc (peers.filter
      (fun q => !q.judge_bad && decide (our + 1 < q.block_height))))
  have hsub : (find_sync_nodes our peers).Sublist
      (sortPeersDesc (peers.filter
        (fun q => !q.judge_bad && decide (our + 1 < q.block_height)))) := by
    rw [hdec]
    conv_rhs => rw [← hsplit]
    exact List.Sublist.append_left (List.take_sublist 1 _) _
  refine ⟨?_, ?_, ?_, ?_, ?_, ?_⟩
  · intro q hq
    have hqf := List.mem_filter.mp (hperm.subset (hsub.subset hq))
    simpa using hqf.2
  · exact List.Pairwise.sublist hsub hsorted
  · intro q hq hbad hten
    have hqf : q ∈ peers.filter
        (fun q => !q.judge_bad && decide (our + 1 < q.block_height)) := by
      apply List.mem_filter.mpr
      refine ⟨hq, ?_⟩
      simp only [hbad, Bool.not_false, Bool.true_and, decide_eq_true_eq]
      omega
    have hqs := hperm.mem_iff.mpr hqf
    have hqs2 : q ∈ (sortPeersDesc (peers.filter
        (fun q => !q.judge_bad && decide (our + 1 < q.block_height)))).takeWhile
          (fun q => !decide (q.block_height ≤ our + 10))
        ++ (sortPeersDesc (peers.filter
          (fun q => !q.judge_bad && decide (our + 1 < q.block_height)))).dropWhile
          (fun q => !decide (q.block_height ≤ our + 10)) := by
      rw [hsplit]
      exact hqs
    rw [hdec]
    rcases List.mem_append.mp hqs2 with h1 | h2
    · exact List.mem_append_left _ h1
    · exfalso
      rcases hdw : (sortPeersDesc (peers.filter
          (fun q => !q.judge_bad && decide (our + 1 < q.block_height)))).dropWhile
          (fun q => !decide (q.block_height ≤ our + 10)) with _ | ⟨d0, dtail⟩
      · rw [hdw] at h2
        cases h2
      · have hd0 := dropWhile_head_false _ _ d0 dtail hdw
        have hd0h : d0.block_height ≤ our + 10 := by simpa using hd0
        have hpw := List.Pairwise.sublist (List.dropWhile_sublist
          (fun q => !decide (q.block_height ≤ our + 10))) hsorted
        rw [hdw] at hpw h2
        rcases List.mem_cons.mp h2 with h2 | h2
        · subst h2
          omega
        · have hge := (List.pairwise_cons.mp hpw).1 q h2
          unfold heightGE at hge
          omega
  · intro q hq
    rw [hdec] at hq
    rcases hdw : (sortPeersDesc (peers.filter
        (fun q => !q.judge_bad && decide (our + 1 < q.block_height)))).dropWhile
        (fun q => !decide (q.block_height ≤ our + 10)) with _ | ⟨d0, dtail⟩
    · rw [hdw] at hq
      simp only [List.take_nil, List.append_nil] at hq
      have hqt := (List.dropLast_sublist _).subset hq
      have hf := List.mem_takeWhile_imp hqt
      have hnot : ¬ (q.block_height ≤ our + 10) := by simpa using hf
      omega
    · rw [hdw] at hq
      have h1 : (d0 :: dtail).take 1 = [d0] := rfl
      rw [h1, List.dropLast_concat] at hq
      have hf := List.mem_takeWhile_imp hq
      have hnot : ¬ (q.block_height ≤ our + 10) := by simpa using hf
      omega
  · intro hall
    have hallf : ∀ q ∈ sortPeersDesc (peers.filter
        (fun q => !q.judge_bad && decide (our + 1 < q.block_height))),
        (fun q => !decide (q.block_height ≤ our + 10)) q = true := by
      intro q hq
      have hqf := List.mem_filter.mp (hperm.subset hq)
      have hc : q.judge_bad = false ∧ our + 1 < q.block_height := by
        simpa using hqf.2
      have hten := hall q hqf.1 hc.1 hc.2
      have hnot : ¬ (q.block_height ≤ our + 10) := by omega
      simpa using hnot
    have htw := List.takeWhile_eq_self_iff.mpr hallf
    have hdw := List.dropWhile_eq_nil_iff.mpr hallf
    rw [hdec, htw, hdw]
    simp only [List.take_nil, List.append_nil]
    exact hperm
  · intro q hq hbad h1 h10
    have hqf : q ∈ peers.filter
        (fun q => !q.judge_bad && decide (our + 1 < q.block_height)) := by
      apply List.mem_filter.mpr
      refine ⟨hq, ?_⟩
      simp only [hbad, Bool.not_false, Bool.true_and, decide_eq_true_eq]
      omega
    have hqs := hperm.mem_iff.mpr hqf
    have hqs2 : q ∈ (sortPeersDesc (peers.filter
        (fun q => !q.judge_bad && decide (our + 1 < q.block_height)))).takeWhile
          (fun q => !decide (q.block_height ≤ our + 10))
        ++ (sortPeersDesc (peers.filter
          (fun q => !q.judge_bad && decide (our + 1 < q.block_height)))).dropWhile
          (fun q => !decide (q.block_height ≤ our + 10)) := by
      rw [hsplit]
      exact hqs
    rcases List.mem_append.mp hqs2 with htw | hdwm
    · exfalso
      have hf := List.mem_takeWhile_imp htw
      have hnot : ¬ (q.block_height ≤ our + 10) := by simpa using hf
      omega
    · rcases hdw : (sortPeersDesc (peers.filter
          (fun q => !q.judge_bad && decide (our + 1 < q.block_height)))).dropWhile
          (fun q => !decide (q.block_height ≤ our + 10)) with _ | ⟨d0, dtail⟩
      · rw [hdw] at hdwm
        cases hdwm
      · have h1t : (d0 :: dtail).take 1 = [d0] := rfl
        have hd0 := dropWhile_head_false _ _ d0 dtail hdw
        have hd0h : d0.block_height ≤ our + 10 := by simpa using hd0
        refine ⟨d0, ?_, ?_, hd0h, ?_⟩
        · rw [hdec, hdw, h1t]
          exact List.getLast?_concat _
        · rw [hdec, hdw, h1t]
          exact List.mem_append_right _ (List.mem_singleton.mpr rfl)
        · rw [hdw] at hdwm
          have hpw := List.Pairwise.sublist (List.dropWhile_sublist
            (fun q => !decide (q.block_height ≤ our + 10))) hsorted
          rw [hdw] at hpw
          rcases List.mem_cons.mp hdwm with hh | hh
          · subst hh
            omega
          · have hge := (List.pairwise_cons.mp hpw).1 q hh
            unfold heightGE at hge
            exact hge

/-- C5 witness: with peers at heights 108 and 120 over height 100, the
peer more than ten ahead is kept. -/
theorem claim_C5_witness :
    (⟨0, 120, false⟩ : Peer) ∈ find_sync_nodes 100 [⟨1, 108, false⟩, ⟨0, 120, false⟩] :=
  (claim_C5_peer_selection 100 [⟨1, 108, false⟩, ⟨0, 120, false⟩]).2.2.1
    ⟨0, 120, false⟩ (by decide) rfl (by decide)

end SnarkOS
